import Mathlib

/-!
Verification development for the cmake-language-server repository.

The repository contains two pyparsing grammars over CMake list files
(a flat whitespace-preserving "Token Mode" grammar in `parser.py` /
`grammar.token_grammar`, and a typed-AST "AST Mode" grammar in
`grammar.ast_grammar`), a canonicalizing formatter (`formatter.py`),
and a visitor-based diagnostics pass (`diagnostics.py`).

This file embeds those components shallowly:
  * parsing state is a position + list of remaining characters, plus a
    `past` flag modelling pyparsing's `LineEnd`, which at end-of-input
    succeeds and advances the location one step past the end (so a
    subsequent match attempt fails and `scanString` reports an end
    location of `len + 1`, i.e. an empty remainder);
  * pyparsing's ordered alternation (`|`) is PEG-style ordered choice,
    `ZeroOrMore` is a greedy loop that stops at the first failing
    element, and every recursive grammar production is written with an
    explicit fuel argument (all grammar loops consume input, so a fuel
    linear in the input length is sufficient; universally quantified
    theorems below are stated for every fuel);
  * the grammars apply `leaveWhitespace` recursively from the roots, so
    no implicit whitespace skipping is modelled anywhere.
-/

/-- Parsing state: absolute position, remaining characters, and the
`past` flag set when pyparsing's `LineEnd` has matched at end-of-input
(after which nothing further can match). -/
structure St where
  pos : Nat
  rest : List Char
  past : Bool
deriving Repr, DecidableEq

/-- Initial state over a string. -/
def initSt (s : String) : St := ⟨0, s.data, false⟩

/-- Space or tab, the characters of the grammar's `space_plus`. -/
def isSpTab (c : Char) : Bool := c = ' ' || c = '\t'

/-- The characters matched by the regex class `\s`. -/
def isWsChar (c : Char) : Bool :=
  c = ' ' || c = '\t' || c = '\n' || c = '\r' || c = '\x0c' || c = '\x0b'

/-- ASCII lower-casing of one character (Python `str.lower` on the
identifier alphabet used by the grammars). -/
def lowerC (c : Char) : Char :=
  if 'A' ≤ c ∧ c ≤ 'Z' then Char.ofNat (c.toNat + 32) else c

/-- ASCII lower-casing of a character list. -/
def lowerL (cs : List Char) : List Char := cs.map lowerC

/-- `stripPre l cs` returns the remainder of `cs` after the exact
prefix `l`, or `none` when `l` does not lead `cs`. -/
def stripPre : List Char → List Char → Option (List Char)
  | [], cs => some cs
  | _ :: _, [] => none
  | a :: l, c :: cs => if a = c then stripPre l cs else none

/-- Exact literal match (pyparsing `Literal` under `leaveWhitespace`). -/
def litP (l : List Char) (st : St) : Option St :=
  (stripPre l st.rest).map fun r => ⟨st.pos + l.length, r, st.past⟩

/-- Caseless literal match: the next `l.length` characters lower-case to
`l`; consumes them (pyparsing `CaselessLiteral`, which reports the
canonical literal text rather than the source spelling). -/
def caselessLitP (l : List Char) (st : St) : Option St :=
  if lowerL (st.rest.take l.length) = l then
    some ⟨st.pos + l.length, st.rest.drop l.length, st.past⟩
  else none

/-- `[ \t]+` (the grammars' `space_plus`): maximal nonempty run. -/
def spacePlusP (st : St) : Option (List Char × St) :=
  match st.rest with
  | c :: cs =>
    if isSpTab c then
      let run := cs.takeWhile isSpTab
      some (c :: run, ⟨st.pos + 1 + run.length, cs.dropWhile isSpTab, st.past⟩)
    else none
  | [] => none

/-- `Optional(space_plus)` (the grammars' `space_star`): never fails. -/
def spaceStarP (st : St) : List Char × St :=
  match spacePlusP st with
  | some r => r
  | none => ([], st)

/-- First character of an identifier: `pp.alphas + "_"`. -/
def identStart (c : Char) : Bool := c.isAlpha || c = '_'

/-- Later characters of an identifier: `pp.alphanums + "_"`. -/
def identCont (c : Char) : Bool := c.isAlphanum || c = '_'

/-- `pp.Word(alphas + "_", alphanums + "_")`: a maximal identifier. -/
def wordP (st : St) : Option (List Char × St) :=
  match st.rest with
  | c :: cs =>
    if identStart c then
      let run := cs.takeWhile identCont
      some (c :: run, ⟨st.pos + 1 + run.length, cs.dropWhile identCont, st.past⟩)
    else none
  | [] => none

/-- `newline | pp.lineEnd`: a literal newline (emitting a "\n" token), or
end-of-input, where pyparsing's `LineEnd` succeeds, emits nothing, and
advances the location one step past the end (modelled by `past`). -/
def lineEndP (st : St) : Option (Option Char × St) :=
  match st.rest with
  | '\n' :: cs => some (some '\n', ⟨st.pos + 1, cs, st.past⟩)
  | [] => if st.past then none else some (none, ⟨st.pos + 1, [], true⟩)
  | _ => none

/-- One `quoted_element` (`[^\\"]|\\[^A-Za-z0-9]|\\[trn]`), returning the
consumed characters. -/
def quotedElemP (st : St) : Option (List Char × St) :=
  match st.rest with
  | '\\' :: d :: cs =>
    if ¬ d.isAlphanum ∨ d = 't' ∨ d = 'r' ∨ d = 'n' then
      some (['\\', d], ⟨st.pos + 2, cs, st.past⟩)
    else none
  | c :: cs =>
    if c ≠ '\\' ∧ c ≠ '"' then some ([c], ⟨st.pos + 1, cs, st.past⟩)
    else none
  | [] => none

/-- One `unquoted_element` (`[^\s()#"\\]|\\[^A-Za-z0-9]|\\[trn]`). -/
def unquotedElemP (st : St) : Option (List Char × St) :=
  match st.rest with
  | '\\' :: d :: cs =>
    if ¬ d.isAlphanum ∨ d = 't' ∨ d = 'r' ∨ d = 'n' then
      some (['\\', d], ⟨st.pos + 2, cs, st.past⟩)
    else none
  | c :: cs =>
    if ¬ isWsChar c ∧ c ∉ ['(', ')', '#', '"', '\\']
    then some ([c], ⟨st.pos + 1, cs, st.past⟩)
    else none
  | [] => none

/-- Greedy `ZeroOrMore` over a text-consuming element, concatenating the
consumed text. Stops at the first failure (or when fuel runs out). -/
def lexLoop (p : St → Option (List Char × St)) : Nat → St → List Char × St
  | 0, st => ([], st)
  | f + 1, st =>
    match p st with
    | none => ([], st)
    | some (x, st') =>
      let (xs, st'') := lexLoop p f st'
      (x ++ xs, st'')

/-- `quoted_argument` in Token Mode: `Combine('"' + quoted_element* + '"')`,
keeping the delimiting quotes in the token text. -/
def quotedArgT (f : Nat) (st : St) : Option (List Char × St) := do
  let st1 ← litP ['"'] st
  let (body, st2) := lexLoop quotedElemP f st1
  let st3 ← litP ['"'] st2
  some ('"' :: body ++ ['"'], st3)

/-- `bracket_open` (`\[=*\[`): returns the count of `=` and the state. -/
def bracketOpenP (st : St) : Option (Nat × St) :=
  match st.rest with
  | '[' :: cs =>
    let eqs := cs.takeWhile (· = '=')
    match cs.dropWhile (· = '=') with
    | '[' :: cs' =>
      some (eqs.length, ⟨st.pos + 2 + eqs.length, cs', st.past⟩)
    | _ => none
  | _ => none

/-- `SkipTo(marker, include=True)`: consume up to and through the first
occurrence of `marker`, returning all consumed characters; fails when
the marker never occurs. -/
def skipToInclP (marker : List Char) : Nat → St → Option (List Char × St)
  | 0, _ => none
  | f + 1, st =>
    match litP marker st with
    | some st' => some (marker, st')
    | none =>
      match st.rest with
      | c :: cs => do
        let (tl, st') ← skipToInclP marker f ⟨st.pos + 1, cs, st.past⟩
        some (c :: tl, st')
      | [] => none

/-- The close marker `]` + `=`*n + `]` for a bracket of fence length n. -/
def closeMarker (n : Nat) : List Char := ']' :: List.replicate n '=' ++ [']']

/-- `bracket_argument` in Token Mode: full text including both fences. -/
def bracketArgT (f : Nat) (st : St) : Option (List Char × St) := do
  let (n, st1) ← bracketOpenP st
  let (body, st2) ← skipToInclP (closeMarker n) f st1
  some ('[' :: List.replicate n '=' ++ '[' :: body, st2)

/-- `unquoted_argument`: `Combine(OneOrMore(unquoted_element))`. -/
def unquotedArgT (f : Nat) (st : St) : Option (List Char × St) := do
  let (x, st1) ← unquotedElemP st
  let (xs, st2) := lexLoop unquotedElemP f st1
  some (x ++ xs, st2)

/-- `argument = bracket_argument | quoted_argument | unquoted_argument`
(ordered choice), as Token Mode text. -/
def argumentT (f : Nat) (st : St) : Option (List Char × St) :=
  match bracketArgT f st with
  | some r => some r
  | none =>
    match quotedArgT f st with
    | some r => some r
    | none => unquotedArgT f st

/-- `line_comment`: `#`, not opening a bracket comment, then the rest of
the line (up to but excluding the newline or end of input). -/
def lineCommentP (st : St) : Option (List Char × St) :=
  match st.rest with
  | '#' :: cs =>
    match bracketOpenP ⟨st.pos + 1, cs, st.past⟩ with
    | some _ => none
    | none =>
      let body := cs.takeWhile (· ≠ '\n')
      some ('#' :: body,
        ⟨st.pos + 1 + body.length, cs.dropWhile (· ≠ '\n'), st.past⟩)
  | _ => none

/-- `bracket_comment = Combine('#' + bracket_argument)`. -/
def bracketCommentP (f : Nat) (st : St) : Option (List Char × St) :=
  match st.rest with
  | '#' :: cs => do
    let (b, st') ← bracketArgT f ⟨st.pos + 1, cs, st.past⟩
    some ('#' :: b, st')
  | _ => none

/-- Greedy `ZeroOrMore` over a token-list element, splicing results. -/
def tokLoop (p : St → Option (List (List Char) × St)) :
    Nat → St → List (List Char) × St
  | 0, st => ([], st)
  | f + 1, st =>
    match p st with
    | none => ([], st)
    | some (ts, st') =>
      let (ts', st'') := tokLoop p f st'
      (ts ++ ts', st'')

/-- One `bracket_comment + space_star` element of `line_ending`. -/
def bcSpaceElemP (f : Nat) (st : St) : Option (List (List Char) × St) := do
  let (bc, st1) ← bracketCommentP f st
  let (sp, st2) := spaceStarP st1
  some (if sp = [] then [bc] else [bc, sp], st2)

/-- `line_ending` as a Token Mode token list:
`space_star + (bracket_comment + space_star)* + line_comment? + (newline | lineEnd)`.
All pieces contribute their literal text as tokens (`LineEnd` at end of
input contributes nothing). -/
def lineEndingT (f : Nat) (st : St) : Option (List (List Char) × St) :=
  let (sp, st1) := spaceStarP st
  let (bcs, st2) := tokLoop (bcSpaceElemP f) f st1
  let (lc, st3) :=
    match lineCommentP st2 with
    | some (t, st') => ([t], st')
    | none => ([], st2)
  match lineEndP st3 with
  | some (onl, st4) =>
    let nl := match onl with
      | some c => [[c]]
      | none => []
    some ((if sp = [] then [] else [sp]) ++ bcs ++ lc ++ nl, st4)
  | none => none

/-- An instrumented Token Mode token. `command_invocation` applies
`space_star.suppress()` between the identifier and the opening paren
(parser.py line 50); the instrumented token records that suppressed
whitespace in `sp` so that full-text fidelity can be stated. -/
inductive ITok where
  | lit (text : List Char)
  | cmd (id sp : List Char) (args : List (List Char))
deriving Repr, DecidableEq

/-- A Token Mode token as Python produces it: a string literal fragment
or a `(identifier, argument_tokens)` pair (the suppressed space gone). -/
inductive Tok where
  | lit (text : List Char)
  | cmd (id : List Char) (args : List (List Char))
deriving Repr, DecidableEq

/-- Forget the instrumentation (this is what `setParseAction` keeps). -/
def toTok : ITok → Tok
  | .lit t => .lit t
  | .cmd id _ args => .cmd id args

/-- The full source text an instrumented token covers. -/
def itokText : ITok → List Char
  | .lit t => t
  | .cmd id sp args => id ++ sp ++ '(' :: args.flatten ++ [')']

/-- Concatenated source text of an instrumented stream. -/
def itoksText (ts : List ITok) : List Char := (ts.map itokText).flatten

/-- The suppressed identifier-to-paren whitespace of a token. -/
def itokSp : ITok → List Char
  | .lit _ => []
  | .cmd _ sp _ => sp

/-- The spec's notion of a token's literal text: a command token
contributes its identifier, its parentheses, and its argument tokens'
text (spec §3 round-trip invariant / §8 completeness). -/
def tokSpecText : Tok → List Char
  | .lit t => t
  | .cmd id args => id ++ '(' :: args.flatten ++ [')']

/-- Spec-level concatenation of a whole token stream. -/
def toksSpecText (ts : List Tok) : List Char := (ts.map tokSpecText).flatten

mutual

/-- The Token Mode `arguments` production:
`ZeroOrMore(argument | line_ending | space_plus | '(' + arguments + ')')`,
greedy, keeping every token (parser.py lines 44-47). -/
def argumentsT : Nat → St → List (List Char) × St
  | 0, st => ([], st)
  | f + 1, st =>
    match argElemT f st with
    | none => ([], st)
    | some (ts, st') =>
      let (ts', st'') := argumentsT f st'
      (ts ++ ts', st'')

/-- One element of the Token Mode `arguments` loop (ordered choice). -/
def argElemT : Nat → St → Option (List (List Char) × St)
  | 0, _ => none
  | f + 1, st =>
    match argumentT f st with
    | some (a, st') => some ([a], st')
    | none =>
      match lineEndingT f st with
      | some r => some r
      | none =>
        match spacePlusP st with
        | some (sp, st') => some ([sp], st')
        | none => do
          let st1 ← litP ['('] st
          let (inner, st2) := argumentsT f st1
          let st3 ← litP [')'] st2
          some (['('] :: inner ++ [[')']], st3)

end

/-- Token Mode `command_invocation` (parser.py lines 49-51):
`identifier + space_star.suppress() + '(' + Group(arguments) + ')'` with
the suppressed space recorded in the instrumented token. -/
def commandInvocationT (f : Nat) (st : St) : Option (ITok × St) := do
  let (id, st1) ← wordP st
  let (sp, st2) := spaceStarP st1
  let st3 ← litP ['('] st2
  let (args, st4) := argumentsT f st3
  let st5 ← litP [')'] st4
  some (.cmd id sp args, st5)

/-- The first alternative of Token Mode `file_element`:
`space_star + command_invocation + line_ending`. -/
def fileElemCmdT (f : Nat) (st : St) : Option (List ITok × St) := do
  let (sp, st1) := spaceStarP st
  let (c, st2) ← commandInvocationT f st1
  let (le, st3) ← lineEndingT f st2
  some ((if sp = [] then [] else [ITok.lit sp]) ++
    [c] ++ le.map ITok.lit, st3)

/-- Token Mode `file_element`
(`space_star + command_invocation + line_ending | line_ending`). -/
def fileElemT (f : Nat) (st : St) : Option (List ITok × St) :=
  match fileElemCmdT f st with
  | some r => some r
  | none => (lineEndingT f st).map fun (le, st') => (le.map ITok.lit, st')

/-- Token Mode `file = ZeroOrMore(file_element)`. -/
def tokenFileT : Nat → St → List ITok × St
  | 0, st => ([], st)
  | f + 1, st =>
    match fileElemT f st with
    | none => ([], st)
    | some (ts, st') =>
      let (ts', st'') := tokenFileT f st'
      (ts ++ ts', st'')

/-- Fuel that is ample for any of the fueled grammar loops on `s`. -/
def bigFuel (s : String) : Nat := 8 * s.length + 16

/-- `ListParser.parse` (parser.py lines 59-63): anchored at offset 0
(`scanString` with a `ZeroOrMore` root always matches at 0), returning
the token list and the unconsumed remainder. -/
def ListParser.parse (s : String) : List Tok × String :=
  let (itoks, st) := tokenFileT (bigFuel s) (initSt s)
  (itoks.map toTok, String.mk st.rest)

/-- Python whitespace characters for `str.rstrip` / `str.isspace`. -/
def isPyWs (c : Char) : Bool := isWsChar c

/-- Python `str.rstrip()`: drop trailing whitespace. -/
def rstripWs (l : List Char) : List Char :=
  (l.reverse.dropWhile isPyWs).reverse

/-- Python `str.isspace()`: nonempty and all whitespace. -/
def isSpaceStr (l : List Char) : Bool := !l.isEmpty && l.all isPyWs

/-- `Formatter._strip_line`: rstrip each line, drop empty lines at the
start, then drop empty lines at the end (formatter.py lines 72-82). -/
def stripLine (lines : List (List Char)) : List (List Char) :=
  let r := (lines.map rstripWs).dropWhile List.isEmpty
  (r.reverse.dropWhile List.isEmpty).reverse

/-- Loop body of `Formatter._format_args` (formatter.py lines 53-70):
`done` collects finished lines, `cur` is the line under construction
(Python's `lines[-1]`); the space case peeks at the next argument. -/
def fmtArgsGo (done : List (List Char)) (cur : List Char) :
    List (List Char) → List (List Char)
  | [] => done ++ [cur]
  | arg :: rest =>
    if arg.head? = some '#' then fmtArgsGo done (cur ++ arg) rest
    else if arg.head? = some '\n' then fmtArgsGo (done ++ [cur]) [] rest
    else if isSpaceStr arg then
      if cur.isEmpty then fmtArgsGo done cur rest
      else if (rest.head?.bind List.head?) = some '#' then
        fmtArgsGo done (cur ++ arg) rest
      else fmtArgsGo done (cur ++ [' ']) rest
    else fmtArgsGo done (cur ++ arg) rest

/-- `Formatter._format_args`. -/
def fmtArgs (args : List (List Char)) : List (List Char) :=
  stripLine (fmtArgsGo [] [] args)

/-- Identifiers that de-indent before being emitted (formatter.py 21-22). -/
def deindentIds : List (List Char) :=
  ["elseif".data, "else".data, "endif".data, "endforeach".data,
   "endwhile".data, "endmacro".data, "endfunction".data]

/-- Identifiers that indent following lines (formatter.py 37-38). -/
def reindentIds : List (List Char) :=
  ["if".data, "elseif".data, "else".data, "foreach".data, "while".data,
   "macro".data, "function".data]

/-- The default indent unit (two spaces). -/
def indentUnit : List Char := [' ', ' ']

/-- `n` levels of indentation. -/
def indentOf (n : Nat) : List Char := (List.replicate n indentUnit).flatten

/-- Loop body of `Formatter.format` (formatter.py lines 17-49): `done`
holds finished top-level lines, `cur` is `cmds[-1]`, `lvl` the running
indent level (`lower_identifier=True`, the default). -/
def fmtGo (done : List (List Char)) (cur : List Char) (lvl : Nat) :
    List Tok → List (List Char)
  | [] => done ++ [cur]
  | .cmd rawId args :: rest =>
    let id := lowerL rawId
    let lvl1 := if id ∈ deindentIds ∧ lvl > 0 then lvl - 1 else lvl
    let line0 := indentOf lvl1 ++ id
    let fargs := fmtArgs args
    let line :=
      if fargs.length < 2 then line0 ++ '(' :: fargs.flatten ++ [')']
      else
        line0 ++ '(' :: '\n' ::
          (fargs.map fun a => indentOf (lvl1 + 1) ++ a ++ ['\n']).flatten ++
          indentOf lvl1 ++ [')']
    let lvl2 := if id ∈ reindentIds then lvl1 + 1 else lvl1
    fmtGo done line lvl2 rest
  | .lit t :: rest =>
    if t = ['\n'] then fmtGo (done ++ [cur]) [] lvl rest
    else if t.head? = some '#' then
      if cur.isEmpty then fmtGo done (indentOf lvl ++ t) lvl rest
      else fmtGo done (cur ++ t) lvl rest
    else if cur.isEmpty then fmtGo done cur lvl rest
    else fmtGo done (cur ++ t) lvl rest

/-- `Formatter.format` with the default configuration: canonical text,
joined by newlines with exactly one trailing newline. -/
def Formatter.format (toks : List Tok) : List Char :=
  List.intercalate ['\n'] (stripLine (fmtGo [] [] 0 toks)) ++ ['\n']

/-- One file of `formatter.main` (formatter.py lines 128-129): a document
whose Token Mode parse leaves a remainder is passed through verbatim,
otherwise the formatted token stream is emitted. -/
def cliFormatOne (content : String) : String :=
  let (toks, remain) := ListParser.parse content
  if remain ≠ "" then content else String.mk (Formatter.format toks)

/-- The `--inplace` write of `formatter.main` (formatter.py lines
131-134): `none` means the file is left untouched. -/
def cliInplaceWrite (content : String) : Option String :=
  let (toks, remain) := ListParser.parse content
  if remain ≠ "" then none else some (String.mk (Formatter.format toks))

/-- A formatting text edit as the server produces it. -/
structure TextEdit where
  startPos : Nat × Nat
  endPos : Nat × Nat
  newText : String
deriving Repr, DecidableEq

/-- `server.formatting` (server.py lines 154-173): `none` (no edit) when
the Token Mode parse leaves a remainder, otherwise one whole-document
edit holding the formatted text. -/
def serverFormatting (content : String) : Option TextEdit :=
  let (toks, remain) := ListParser.parse content
  if remain ≠ "" then none
  else
    let lines := content.data.count '\n'
    some ⟨(0, 0), (lines + 1, 0), String.mk (Formatter.format toks)⟩

/-- An AST argument node (`grammar.Argument` subclasses): the value
excludes delimiting quotes and bracket fences; `loc` is the match
start offset. -/
inductive Arg where
  | unquoted (loc : Nat) (value : List Char)
  | quoted (loc : Nat) (value : List Char)
  | bracket (loc : Nat) (value : List Char)
deriving Repr, DecidableEq

/-- The raw value of an argument node (`Argument.value`). -/
def Arg.val : Arg → List Char
  | .unquoted _ v => v
  | .quoted _ v => v
  | .bracket _ v => v

/-- A command-invocation-shaped AST node: `grammar.CommandInvocation`
and its keyword subclasses (their payload is identical; the subclass is
recorded by the position in the tree). -/
structure CmdInv where
  loc : Nat
  id : List Char
  args : List Arg
deriving Repr, DecidableEq

/-- `grammar.CommandDeclarationStart`: tokens `[keyword, Group(args)]`,
with `name = args[0]` and `arguments = args[1:]` (grammar.py 65-69; an
empty group makes the Python parse action raise, modelled as failure). -/
structure DeclStart where
  loc : Nat
  id : List Char
  name : Arg
  args : List Arg
deriving Repr, DecidableEq

mutual

/-- An AST block (`grammar.ast_grammar`'s `block` production):
`CommandInvocation`, `CommandDeclarationBlock`, `ConditionalBlock`, or
`LoopBlock` (each with its match-start location). -/
inductive Blk where
  | inv (i : CmdInv)
  | declBlock (loc : Nat) (d : DeclStart) (children : List Blk) (e : CmdInv)
  | condBlock (loc : Nat) (branches : List CondBranch) (e : CmdInv)
  | loopBlock (loc : Nat) (d : CmdInv) (children : List Blk) (e : CmdInv)

/-- A conditional branch (`grammar.ConditionalBranch`): node location,
branch declaration (`ConditionalBranchDeclaration`), and body blocks. -/
inductive CondBranch where
  | mk (loc : Nat) (decl : CmdInv) (children : List Blk)

end

/-- The location of a conditional branch node. -/
def CondBranch.loc : CondBranch → Nat
  | .mk l _ _ => l

/-- The declaration invocation of a conditional branch. -/
def CondBranch.decl : CondBranch → CmdInv
  | .mk _ d _ => d

/-- The body blocks of a conditional branch. -/
def CondBranch.children : CondBranch → List Blk
  | .mk _ _ ch => ch

/-- The AST Mode block keywords (grammar.py 281-285). Note that `else`
is absent. -/
def blockKeywordStrs : List (List Char) :=
  ["function".data, "macro".data, "endfunction".data, "endmacro".data,
   "if".data, "elseif".data, "endif".data,
   "foreach".data, "endforeach".data, "while".data, "endwhile".data]

/-- `~block_keywords`: true when some block keyword caselessly matches
at the current position (a plain `CaselessLiteral`, so any identifier
that merely begins with a keyword is also hit). -/
def kwLeads (cs : List Char) : Bool :=
  blockKeywordStrs.any fun kw => lowerL (cs.take kw.length) = kw

/-- AST Mode `identifier` (grammar.py 287):
`~block_keywords + Word(alphas + "_", alphanums + "_")`. -/
def identifierA (st : St) : Option (List Char × St) :=
  if kwLeads st.rest then none else wordP st

/-- AST Mode `quoted_argument`: quotes suppressed, value is the escaped
body text as written. -/
def quotedArgA (f : Nat) (st : St) : Option (Arg × St) := do
  let st1 ← litP ['"'] st
  let (body, st2) := lexLoop quotedElemP f st1
  let st3 ← litP ['"'] st2
  some (.quoted st.pos body, st3)

/-- AST Mode `bracket_argument`: fences suppressed, value is the content
up to (excluding) the close marker. -/
def bracketArgA (f : Nat) (st : St) : Option (Arg × St) := do
  let (n, st1) ← bracketOpenP st
  let (txt, st2) ← skipToInclP (closeMarker n) f st1
  some (.bracket st.pos (txt.take (txt.length - (closeMarker n).length)), st2)

/-- AST Mode `unquoted_argument`. -/
def unquotedArgA (f : Nat) (st : St) : Option (Arg × St) := do
  let (x, st1) ← unquotedElemP st
  let (xs, st2) := lexLoop unquotedElemP f st1
  some (.unquoted st.pos (x ++ xs), st2)

/-- AST Mode `argument` (ordered choice, bracket first). -/
def argumentA (f : Nat) (st : St) : Option (Arg × St) :=
  match bracketArgA f st with
  | some r => some r
  | none =>
    match quotedArgA f st with
    | some r => some r
    | none => unquotedArgA f st

/-- AST Mode `line_ending.suppress()`: same consumption as Token Mode,
tokens discarded. -/
def lineEndingA (f : Nat) (st : St) : Option St :=
  (lineEndingT f st).map Prod.snd

mutual

/-- AST Mode `arguments`: `ZeroOrMore(argument | line_ending.suppress()
| space_plus.suppress() | Suppress("(") + arguments + Suppress(")"))`
(grammar.py 289-294) — whitespace dropped, nested parens flattened. -/
def argumentsA : Nat → St → List Arg × St
  | 0, st => ([], st)
  | f + 1, st =>
    match argElemA f st with
    | none => ([], st)
    | some (as, st') =>
      let (as', st'') := argumentsA f st'
      (as ++ as', st'')

/-- One element of the AST Mode `arguments` loop. -/
def argElemA : Nat → St → Option (List Arg × St)
  | 0, _ => none
  | f + 1, st =>
    match argumentA f st with
    | some (a, st') => some ([a], st')
    | none =>
      match lineEndingA f st with
      | some st' => some ([], st')
      | none =>
        match spacePlusP st with
        | some (_, st') => some ([], st')
        | none => do
          let st1 ← litP ['('] st
          let (inner, st2) := argumentsA f st1
          let st3 ← litP [')'] st2
          some (inner, st3)

end

/-- AST Mode generic `command_invocation` (grammar.py 298-300). -/
def commandInvocationA (f : Nat) (st : St) : Option (CmdInv × St) := do
  let (id, st1) ← identifierA st
  let (_, st2) := spaceStarP st1
  let st3 ← litP ['('] st2
  let (args, st4) := argumentsA f st3
  let st5 ← litP [')'] st4
  some (⟨st.pos, id, args⟩, st5)

/-- `make_keyword_parser`: a caseless keyword (reported in its canonical
spelling), optional space, and a parenthesised argument group. -/
def kwInvA (kw : List Char) (f : Nat) (st : St) : Option (CmdInv × St) := do
  let st1 ← caselessLitP kw st
  let (_, st2) := spaceStarP st1
  let st3 ← litP ['('] st2
  let (args, st4) := argumentsA f st3
  let st5 ← litP [')'] st4
  some (⟨st.pos, kw, args⟩, st5)

/-- `make_keyword_line_parser`: leading space, keyword invocation, and a
suppressed line ending. -/
def kwLineA (kw : List Char) (f : Nat) (st : St) : Option (CmdInv × St) := do
  let (_, st1) := spaceStarP st
  let (inv, st2) ← kwInvA kw f st1
  let st3 ← lineEndingA f st2
  some (inv, st3)

/-- A `function`/`macro` declaration start line, building a
`CommandDeclarationStart` (`name = args[0]`, remaining arguments after
it; an empty group is a failure, where Python raises `IndexError`). -/
def declStartLineA (kw : List Char) (f : Nat) (st : St) :
    Option (DeclStart × St) := do
  let (inv, st') ← kwLineA kw f st
  match inv.args with
  | [] => none
  | n :: rest => some (⟨inv.loc, inv.id, n, rest⟩, st')

mutual

/-- `ZeroOrMore(block)`: greedy, splicing each element's blocks (a
blank/comment line contributes none). -/
def blocksA : Nat → St → List Blk × St
  | 0, st => ([], st)
  | f + 1, st =>
    match blockA f st with
    | none => ([], st)
    | some (bs, st') =>
      let (bs', st'') := blocksA f st'
      (bs ++ bs', st'')

/-- The `block` production (grammar.py 352-358), ordered choice:
command declaration block, conditional block, loop block, generic
invocation line, or a bare line ending. The block constructs use
pyparsing `-` internally: a failure after its commit point is a fatal
`ParseSyntaxException` that aborts the whole parse instead of letting
this choice try the next alternative. This embedding models such a
failure as a plain failure (`none`): it agrees with the program on
every successful parse and on inputs where no committed alternative
partially matches, but collapses the fatal-abort path into an
ordinary no-parse, so no theorem below may rest on backtracking out
of a committed block construct. -/
def blockA : Nat → St → Option (List Blk × St)
  | 0, _ => none
  | f + 1, st =>
    match commandDeclBlockA f st with
    | some (b, st') => some ([b], st')
    | none =>
      match conditionalBlockA f st with
      | some ((brs, e), st') => some ([.condBlock st.pos brs e], st')
      | none =>
        match loopBlockA f st with
        | some (b, st') => some ([b], st')
        | none =>
          match (do
            let (_, st1) := spaceStarP st
            let (inv, st2) ← commandInvocationA f st1
            let st3 ← lineEndingA f st2
            some (Blk.inv inv, st3) : Option (Blk × St)) with
          | some (b, st') => some ([b], st')
          | none =>
            match lineEndingA f st with
            | some st' => some ([], st')
            | none => none

/-- `command_decl_block` (grammar.py 324-327): a `function` or `macro`
pair with nested blocks. -/
def commandDeclBlockA : Nat → St → Option (Blk × St)
  | 0, _ => none
  | f + 1, st =>
    match (do
      let (d, st1) ← declStartLineA "function".data f st
      let (ch, st2) := blocksA f st1
      let (e, st3) ← kwLineA "endfunction".data f st2
      some (Blk.declBlock st.pos d ch e, st3) : Option (Blk × St)) with
    | some r => some r
    | none => do
      let (d, st1) ← declStartLineA "macro".data f st
      let (ch, st2) := blocksA f st1
      let (e, st3) ← kwLineA "endmacro".data f st2
      some (Blk.declBlock st.pos d ch e, st3)

/-- `conditional_block` (grammar.py 333-339): an `if` branch, zero or
more `elseif` branches, and an `endif` terminator. There is no `else`
alternative in the grammar. -/
def conditionalBlockA (f : Nat) (st : St) :
    Option ((List CondBranch × CmdInv) × St) :=
  match f with
  | 0 => none
  | f + 1 => do
    let (d0, st1) ← kwLineA "if".data f st
    let (ch0, st2) := blocksA f st1
    let (brs, st3) := elseifLoopA f st2
    let (e, st4) ← kwLineA "endif".data f st3
    some ((CondBranch.mk st.pos d0 ch0 :: brs, e), st4)

/-- `ZeroOrMore` of `elseif` branches. -/
def elseifLoopA : Nat → St → List CondBranch × St
  | 0, st => ([], st)
  | f + 1, st =>
    match (do
      let (d, st1) ← kwLineA "elseif".data f st
      let (ch, st2) := blocksA f st1
      some (CondBranch.mk st.pos d ch, st2) : Option (CondBranch × St)) with
    | none => ([], st)
    | some (br, st') =>
      let (brs, st'') := elseifLoopA f st'
      (br :: brs, st'')

/-- `loop_block` as written in the source (grammar.py 346-349):
`(foreach_start - blocks - foreach_end) | (while_end - blocks - while_end)`.
The second alternative uses `while_end` (the `endwhile` line parser) in
the declaration position — `while_start` is defined on line 344 but
never used. The `-` commit is modelled as plain failure (see `blockA`):
in the program, once an alternative's leading keyword line has
matched, a later failure aborts the parse fatally rather than
backtracking. On a nonsense pairing such as `endwhile(a) … endwhile(b)`
the program therefore raises an exception, while this model, lacking
the abort, can return a `LoopBlock` value the program never yields —
so no theorem may rely on this alternative succeeding. On inputs whose
leading keyword matches no alternative (for example a `while(...)`
line) model and program agree that nothing parses. -/
def loopBlockA : Nat → St → Option (Blk × St)
  | 0, _ => none
  | f + 1, st =>
    match (do
      let (d, st1) ← kwLineA "foreach".data f st
      let (ch, st2) := blocksA f st1
      let (e, st3) ← kwLineA "endforeach".data f st2
      some (Blk.loopBlock st.pos d ch e, st3) : Option (Blk × St)) with
    | some r => some r
    | none => do
      let (d, st1) ← kwLineA "endwhile".data f st
      let (ch, st2) := blocksA f st1
      let (e, st3) ← kwLineA "endwhile".data f st2
      some (Blk.loopBlock st.pos d ch e, st3)

end

/-- `listsfile = ZeroOrMore(block)` wrapped in a `ListsFile` node; the
result is the block list and the unconsumed remainder. -/
def astParse (s : String) : List Blk × String :=
  let (bs, st) := blocksA (bigFuel s) (initSt s)
  (bs, String.mk st.rest)

/-- `pyparsing.lineno(loc, s)`: 1-based line number of `loc`. -/
def linenoAt (s : List Char) (loc : Nat) : Nat := (s.take loc).count '\n' + 1

/-- `pyparsing.col(loc, s)`: 1-based column,
`loc - s.rfind("\n", 0, loc)`. -/
def colAt (s : List Char) (loc : Nat) : Nat :=
  match (s.take loc).reverse.findIdx? (· = '\n') with
  | some k => k + 1
  | none => loc + 1

/-- `DiagnosticVisitor.loc_to_pos`: 0-based (line, column). -/
def locToPos (s : List Char) (loc : Nat) : Nat × Nat :=
  (linenoAt s loc - 1, colAt s loc - 1)

/-- `DiagnosticVisitor.loc_to_range`: the range from `loc` to `loc+1`. -/
def locToRange (s : List Char) (loc : Nat) : (Nat × Nat) × (Nat × Nat) :=
  (locToPos s loc, locToPos s (loc + 1))

/-- An LSP diagnostic of `diagnostics.py`; severity uses the LSP codes
(Error = 1, Warning = 2, Information = 3), source is always
"cmake-ls". -/
structure Diag where
  range : (Nat × Nat) × (Nat × Nat)
  message : String
  severity : Nat
deriving Repr, DecidableEq

/-- A visit event of the AST traversal. Each constructor is one node
class reaching `DiagnosticVisitor.visit`; the node's handler list is
its class followed by its `CommandInvocation`-derived ancestry
(grammar.py `visit` methods, diagnostics.py 17-27). `declStartEv` and
`declEndEv` are the events a `CommandDeclarationStart`/`End` node
would produce — `CommandDeclarationBlock.visit` (grammar.py 93-94)
visits only itself and its children, so the traversal never emits
them. -/
inductive Ev where
  | listsFileEv
  | invEv (i : CmdInv)
  | declBlockEv
  | declStartEv (d : DeclStart)
  | declEndEv (i : CmdInv)
  | condBlockEv (branches : List CondBranch) (e : CmdInv)
  | condBranchEv
  | condEndEv (i : CmdInv)
  | loopBlockEv
  | loopDeclEv (i : CmdInv)
  | loopEndEv (i : CmdInv)
  | argEv (a : Arg)

/-- The visit-event stream of one block, fueled on tree depth:
  * `CommandInvocation.visit` visits itself then its arguments;
  * `CommandDeclarationBlock.visit` visits itself and its children
    only (not the declaration or end nodes);
  * `ConditionalBlock.visit` visits itself, each branch (a branch
    visits itself then its children, not its declaration), then the
    `ConditionalEnd` node (a `CommandInvocation`, so with arguments);
  * `LoopBlock.visit` visits itself, its declaration, children, and
    end (grammar.py 154-160). -/
def evsOfBlk : Nat → Blk → List Ev
  | 0, _ => []
  | f + 1, b =>
    match b with
    | .inv i => .invEv i :: i.args.map .argEv
    | .declBlock _ _ ch _ => .declBlockEv :: (ch.map (evsOfBlk f)).flatten
    | .condBlock _ brs e =>
      .condBlockEv brs e ::
        ((brs.map fun br =>
          .condBranchEv :: (br.children.map (evsOfBlk f)).flatten).flatten
          ++ .condEndEv e :: e.args.map .argEv)
    | .loopBlock _ d ch e =>
      .loopBlockEv :: (.loopDeclEv d :: d.args.map .argEv) ++
        (ch.map (evsOfBlk f)).flatten ++ .loopEndEv e :: e.args.map .argEv

/-- The event stream of a whole `ListsFile` node. -/
def fileEvents (f : Nat) (blks : List Blk) : List Ev :=
  .listsFileEv :: (blks.map (evsOfBlk f)).flatten

/-- Whether a visit event is a `CommandInvocation`-classed node (so the
`visit_CommandInvocation` handler of a rule fires on it), and its
invocation payload. -/
def Ev.invPayload : Ev → Option CmdInv
  | .invEv i => some i
  | .declStartEv d => some ⟨d.loc, d.id, d.args⟩
  | .declEndEv i => some i
  | .condEndEv i => some i
  | .loopDeclEv i => some i
  | .loopEndEv i => some i
  | _ => none

/-- `OrphanedLoopCommand.visit_CommandInvocation` (diagnostics.py
49-61): `break`/`continue` with the loop counter not positive. -/
def orphanedHit (ctr : Int) (i : CmdInv) : Bool :=
  (lowerL i.id = "break".data ∨ lowerL i.id = "continue".data) ∧ ¬ ctr > 0

/-- `OrphanedLoopCommand` over the event stream: the counter moves on
`visit_LoopDeclaration` / `visit_LoopEnd`, before the generic
invocation handler of the same node runs. -/
def orphanedLoopRun (src : List Char) (evs : List Ev) : List Diag :=
  (evs.foldl (fun (acc : Int × List Diag) ev =>
    let ctr := match ev with
      | .loopDeclEv _ => acc.1 + 1
      | .loopEndEv _ => acc.1 - 1
      | _ => acc.1
    match ev.invPayload with
    | some i =>
      if orphanedHit ctr i then
        (ctr, acc.2 ++ [⟨locToRange src i.loc,
          "Orphaned loop command: Break or continue without parent loop",
          1⟩])
      else (ctr, acc.2)
    | none => (ctr, acc.2)) (0, [])).2

/-- `ReturnInMacro.visit_CommandInvocation` (diagnostics.py 79-92): a
`return` invocation is reported unless the macro counter is negative
(the source tests `macro_counter < 0`, not `<= 0`). -/
def returnHit (ctr : Int) (i : CmdInv) : Bool :=
  lowerL i.id = "return".data ∧ ¬ ctr < 0

/-- `ReturnInMacro` over the event stream: the macro counter moves only
on `CommandDeclarationStart`/`End` events with identifier
`macro`/`endmacro` — events the traversal never emits, since
`CommandDeclarationBlock.visit` skips its declaration and end nodes. -/
def returnInMacroRun (src : List Char) (evs : List Ev) : List Diag :=
  (evs.foldl (fun (acc : Int × List Diag) ev =>
    let ctr := match ev with
      | .declStartEv d => if lowerL d.id = "macro".data then acc.1 + 1 else acc.1
      | .declEndEv i => if lowerL i.id = "endmacro".data then acc.1 - 1 else acc.1
      | _ => acc.1
    match ev.invPayload with
    | some i =>
      if returnHit ctr i then
        (ctr, acc.2 ++ [⟨locToRange src i.loc,
          "Return in macro: Prefer message(FATAL_ERROR ...) to halt execution in macro",
          2⟩])
      else (ctr, acc.2)
    | none => (ctr, acc.2)) (0, [])).2

/-- The strip set of `RedundantAssignment`: Python `rhs.strip("${}")`
removes any leading and trailing characters from this set. -/
def stripChars : List Char := ['$', Char.ofNat 123, Char.ofNat 125]

/-- Python `str.strip("${}")`. -/
def pyStrip (cs : List Char) : List Char :=
  ((cs.dropWhile (· ∈ stripChars)).reverse.dropWhile (· ∈ stripChars)).reverse

/-- `RedundantAssignment.visit_CommandInvocation` (diagnostics.py
98-113): a `set` with exactly two arguments whose value has exactly
one `$` and strips to the destination name. -/
def redundantHit (i : CmdInv) : Bool :=
  decide (lowerL i.id = "set".data) &&
    match i.args with
    | [lhs, rhs] =>
      decide (rhs.val.count '$' = 1) && decide (lhs.val = pyStrip rhs.val)
    | _ => false

/-- `RedundantAssignment` over the event stream. -/
def redundantAssignmentRun (src : List Char) (evs : List Ev) : List Diag :=
  evs.foldl (fun acc ev =>
    match ev.invPayload with
    | some i =>
      if redundantHit i then
        acc ++ [⟨locToRange src i.loc,
          "Redundant assignment: Destination and source variable names match",
          2⟩]
      else acc
    | none => acc) []

/-- The positional comparison of `DuplicateBranch` (diagnostics.py
127-131): `zip` truncates to the shorter argument list, and `all` of
the zipped pairs — so no length check is made. -/
def branchArgsMatch (a b : CondBranch) : Bool :=
  ((a.decl.args.zip b.decl.args).all fun (m, n) => m.val = n.val)

/-- First matching pair in `itertools.combinations` order; reports the
second element of the pair. -/
def firstDupBranch : List CondBranch → Option CondBranch
  | [] => none
  | a :: rest =>
    match rest.find? (branchArgsMatch a) with
    | some b => some b
    | none => firstDupBranch rest

/-- `DuplicateBranch.visit_ConditionalBlock` over the event stream: at
most one diagnostic per conditional block, on the later branch of the
first matching pair. -/
def duplicateBranchRun (src : List Char) (evs : List Ev) : List Diag :=
  evs.foldl (fun acc ev =>
    match ev with
    | .condBlockEv brs _ =>
      match firstDupBranch brs with
      | some b =>
        acc ++ [⟨locToRange src b.loc,
          "Duplicate conditional branch: Condition matches a previous branch",
          2⟩]
      | none => acc
    | _ => acc) []

/-- Python `str.isupper()` on an identifier: at least one cased (here:
ASCII letter) character and no lower-case one. -/
def isUpperStr (cs : List Char) : Bool :=
  cs.any Char.isAlpha ∧ cs.all fun c => ¬ c.isAlpha ∨ c.isUpper

/-- `ModernizeLowercaseCommands` over the event stream. -/
def modernizeLowercaseRun (src : List Char) (evs : List Ev) : List Diag :=
  evs.foldl (fun acc ev =>
    match ev.invPayload with
    | some i =>
      if isUpperStr i.id then
        acc ++ [⟨locToRange src i.loc, "Modernize: prefer lowercase commands", 3⟩]
      else acc
    | none => acc) []

/-- The directory-based API names of `ModernizePreferTargetCmds`. -/
def dirApi : List (List Char) :=
  ["add_definitions".data, "add_compile_options".data,
   "add_compile_definitions".data, "include_directories".data,
   "link_libraries".data]

/-- `ModernizePreferTargetCmds` over the event stream. -/
def modernizePreferTargetRun (src : List Char) (evs : List Ev) : List Diag :=
  evs.foldl (fun acc ev =>
    match ev.invPayload with
    | some i =>
      if lowerL i.id ∈ dirApi then
        acc ++ [⟨locToRange src i.loc,
          "Modernize: prefer target-based commands over directory-based commands",
          3⟩]
      else acc
    | none => acc) []

/-- The `diagnose` loop of diagnostics.py 187-204 over an abstract rule
list: each rule's full pass runs in registration order and its
diagnostics are appended; the loop has no exception handler, so a rule
pass that raises propagates out of `diagnose` immediately (losing the
diagnostics accumulated so far). -/
def diagnoseLoop {α : Type} (x : α) :
    List (α → Except String (List Diag)) → List Diag →
      Except String (List Diag)
  | [], acc => .ok acc
  | r :: rs, acc =>
    match r x with
    | .error e => .error e
    | .ok ds => diagnoseLoop x rs (acc ++ ds)

/-- The `diagnose` loop of diagnostics.py 187-204 over an abstract rule
list, anchored at an empty accumulator. -/
def diagnoseWith {α : Type} (rules : List (α → Except String (List Diag))) (x : α) :
    Except String (List Diag) :=
  diagnoseLoop x rules []

/-- `diagnose` with the registered visitors, in registration order
(diagnostics.py 190-197). -/
def diagnose (src : List Char) (blks : List Blk) (f : Nat) : List Diag :=
  let evs := fileEvents f blks
  duplicateBranchRun src evs ++ modernizeLowercaseRun src evs ++
    modernizePreferTargetRun src evs ++ orphanedLoopRun src evs ++
    redundantAssignmentRun src evs ++ returnInMacroRun src evs

/-- Following the claim's words (C8): the value "after stripping the
literal `${`/`}` wrapper" — if the value is exactly a `${...}` wrapper
around some text, that text; otherwise the value unchanged. -/
def specWrapStrip (v : List Char) : List Char :=
  if 3 ≤ v.length ∧ v.take 2 = ['$', Char.ofNat 123] ∧
      v.getLast? = some (Char.ofNat 125)
  then (v.drop 2).dropLast else v

/-- The trigger condition exactly as claim C8 words it: a `set` with
two arguments whose value holds exactly one `$` and, after stripping
the literal wrapper, equals the name. -/
def specRedundantHit (i : CmdInv) : Bool :=
  decide (lowerL i.id = "set".data) &&
    match i.args with
    | [lhs, rhs] =>
      decide (rhs.val.count '$' = 1) && decide (specWrapStrip rhs.val = lhs.val)
    | _ => false

/-- Removes leading characters drawn from `{'$', '{', '}'}` (written as
an explicit recursion; the amended claim's reading of Python `strip`). -/
def stripLeadRec : List Char → List Char
  | [] => []
  | c :: cs =>
    if c = '$' ∨ c = Char.ofNat 123 ∨ c = Char.ofNat 125
    then stripLeadRec cs else c :: cs

/-- The amended claim's strip: remove all leading and all trailing
characters drawn from `{'$', '{', '}'}`. -/
def stripBothRec (cs : List Char) : List Char :=
  (stripLeadRec (stripLeadRec cs).reverse).reverse

/-- The trigger condition as amended claim C8 words it: a `set` with
two arguments `(name, value)` where `value` holds exactly one `$` and,
after removing all leading and trailing characters from the set
`{'$', '{', '}'}` (Python `str.strip("${}")` semantics), equals
`name`. -/
def amendedRedundantHit (i : CmdInv) : Bool :=
  decide (lowerL i.id = "set".data) &&
    match i.args with
    | [lhs, rhs] =>
      decide (rhs.val.count '$' = 1) && decide (stripBothRec rhs.val = lhs.val)
    | _ => false

/-- The first fault among the rules, in registration order (what the
loop of `diagnose` would hit first). -/
def firstFault {α : Type} (rules : List (α → Except String (List Diag)))
    (x : α) : Option String :=
  rules.findSome? fun r =>
    match r x with
    | .error e => some e
    | .ok _ => none

/-- The concatenation, in registration order, of the diagnostics of
the rules that do not fault. -/
def okConcat {α : Type} (rules : List (α → Except String (List Diag)))
    (x : α) : List Diag :=
  rules.flatMap fun r =>
    match r x with
    | .ok ds => ds
    | .error _ => []

/-! ### Text fidelity of the Token Mode grammar

Every Token Mode production's emitted tokens, concatenated (with the
suppressed identifier-to-paren whitespace restored from the
instrumentation), equal exactly the text it consumed. -/

theorem stripPre_append {l cs r : List Char} (h : stripPre l cs = some r) :
    l ++ r = cs := by
  induction l generalizing cs with
  | nil => simp [stripPre] at h; simp [h]
  | cons a l ih =>
    cases cs with
    | nil => simp [stripPre] at h
    | cons c cs =>
      by_cases hac : a = c
      · subst hac
        simp only [stripPre, if_pos rfl] at h
        simpa using ih h
      · simp [stripPre, hac] at h

theorem litP_text {l : List Char} {st st' : St} (h : litP l st = some st') :
    l ++ st'.rest = st.rest := by
  unfold litP at h
  cases hs : stripPre l st.rest with
  | none => simp [hs] at h
  | some r =>
    simp only [hs, Option.map_some'] at h
    cases h
    simpa using stripPre_append hs

theorem spacePlusP_text {st : St} {x : List Char} {st' : St}
    (h : spacePlusP st = some (x, st')) : x ++ st'.rest = st.rest := by
  unfold spacePlusP at h
  cases hr : st.rest with
  | nil => simp [hr] at h
  | cons c cs =>
    simp only [hr] at h
    by_cases hc : isSpTab c = true
    · simp only [hc, if_pos rfl] at h
      cases h
      show c :: (List.takeWhile _ cs ++ List.dropWhile _ cs) = c :: cs
      rw [List.takeWhile_append_dropWhile]
    · simp [hc] at h

theorem spaceStarP_text (st : St) :
    (spaceStarP st).1 ++ (spaceStarP st).2.rest = st.rest := by
  unfold spaceStarP
  cases h : spacePlusP st with
  | none => simp
  | some r =>
    obtain ⟨x, st1⟩ := r
    simpa using spacePlusP_text h

theorem wordP_text {st : St} {x : List Char} {st' : St}
    (h : wordP st = some (x, st')) : x ++ st'.rest = st.rest := by
  unfold wordP at h
  cases hr : st.rest with
  | nil => simp [hr] at h
  | cons c cs =>
    simp only [hr] at h
    by_cases hc : identStart c = true
    · simp only [hc, if_pos rfl] at h
      cases h
      show c :: (List.takeWhile _ cs ++ List.dropWhile _ cs) = c :: cs
      rw [List.takeWhile_append_dropWhile]
    · simp [hc] at h

theorem lineEndP_text {st : St} {onl : Option Char} {st' : St}
    (h : lineEndP st = some (onl, st')) :
    onl.toList ++ st'.rest = st.rest := by
  unfold lineEndP at h
  split at h
  · rename_i cs heq
    simp at h
    obtain ⟨h1, h2⟩ := h
    subst h1; cases h2; simp [heq]
  · rename_i heq
    split at h
    · simp at h
    · simp at h
      obtain ⟨h1, h2⟩ := h
      subst h1; cases h2; simp [heq]
  · simp at h

theorem quotedElemP_text {st : St} {x : List Char} {st' : St}
    (h : quotedElemP st = some (x, st')) : x ++ st'.rest = st.rest := by
  unfold quotedElemP at h
  split at h
  · split at h
    · rename_i cs _ heq _
      simp at h
      obtain ⟨h1, h2⟩ := h
      subst h1; cases h2; simp [heq]
    · simp at h
  · split at h
    · rename_i c cs heq hne _
      simp at h
      obtain ⟨h1, h2⟩ := h
      subst h1; cases h2; exact hne.symm
    · simp at h
  · simp at h

theorem unquotedElemP_text {st : St} {x : List Char} {st' : St}
    (h : unquotedElemP st = some (x, st')) : x ++ st'.rest = st.rest := by
  unfold unquotedElemP at h
  split at h
  · split at h
    · rename_i cs _ heq _
      simp at h
      obtain ⟨h1, h2⟩ := h
      subst h1; cases h2; simp [heq]
    · simp at h
  · split at h
    · rename_i c cs heq hne _
      simp at h
      obtain ⟨h1, h2⟩ := h
      subst h1; cases h2; exact hne.symm
    · simp at h
  · simp at h

theorem lexLoop_text {p : St → Option (List Char × St)}
    (hp : ∀ st x st', p st = some (x, st') → x ++ st'.rest = st.rest) :
    ∀ f st, (lexLoop p f st).1 ++ (lexLoop p f st).2.rest = st.rest := by
  intro f
  induction f with
  | zero => intro st; simp [lexLoop]
  | succ f ih =>
    intro st
    unfold lexLoop
    cases h : p st with
    | none => simp
    | some r =>
      obtain ⟨x, st'⟩ := r
      have h1 := hp st x st' h
      have h2 := ih st'
      simp only []
      rw [List.append_assoc, h2, h1]

theorem quotedArgT_text {f : Nat} {st : St} {x : List Char} {st' : St}
    (h : quotedArgT f st = some (x, st')) : x ++ st'.rest = st.rest := by
  unfold quotedArgT at h
  cases h1 : litP ['"'] st with
  | none => simp [h1] at h
  | some st1 =>
    simp only [h1, Option.bind_eq_bind, Option.some_bind] at h
    cases hb : lexLoop quotedElemP f st1 with
    | mk body st2 =>
      simp only [hb] at h
      cases h3 : litP ['"'] st2 with
      | none => simp [h3] at h
      | some st3 =>
        simp only [h3, Option.some_bind] at h
        simp at h
        obtain ⟨hx, hst⟩ := h
        subst hx; subst hst
        have e1 := litP_text h1
        have e2 : body ++ st2.rest = st1.rest := by
          have := lexLoop_text (fun st x st' => quotedElemP_text) f st1
          rw [hb] at this; exact this
        have e3 := litP_text h3
        simp only [List.cons_append, List.append_assoc] at *
        rw [e3, e2, ← e1]
        simp

theorem bracketOpenP_text {st : St} {n : Nat} {st' : St}
    (h : bracketOpenP st = some (n, st')) :
    '[' :: List.replicate n '=' ++ '[' :: st'.rest = st.rest := by
  unfold bracketOpenP at h
  split at h
  · rename_i cs heq
    split at h
    · rename_i cs' heq2
      simp at h
      obtain ⟨h1, h2⟩ := h
      subst h1; cases h2
      have hrep : List.replicate (List.takeWhile (fun x => x = '=') cs).length '='
          = List.takeWhile (fun x => x = '=') cs := by
        symm
        refine List.eq_replicate_iff.mpr ⟨rfl, ?_⟩
        intro b hb
        simpa using List.mem_takeWhile_imp hb
      rw [heq, hrep]
      show '[' :: (List.takeWhile (fun x => decide (x = '=')) cs ++ '[' :: cs')
          = '[' :: cs
      rw [← heq2, List.takeWhile_append_dropWhile]
    · simp at h
  · simp at h

theorem skipToInclP_text {marker : List Char} {f : Nat} {st : St}
    {x : List Char} {st' : St} (h : skipToInclP marker f st = some (x, st')) :
    x ++ st'.rest = st.rest := by
  induction f generalizing st x with
  | zero => simp [skipToInclP] at h
  | succ f ih =>
    unfold skipToInclP at h
    cases h1 : litP marker st with
    | some st1 =>
      simp only [h1] at h
      simp at h
      obtain ⟨h2, h3⟩ := h
      subst h2; subst h3
      exact litP_text h1
    | none =>
      simp only [h1] at h
      split at h
      · rename_i c cs heq
        cases h2 : skipToInclP marker f ⟨st.pos + 1, cs, st.past⟩ with
        | none => simp [h2] at h
        | some r =>
          obtain ⟨tl, st2⟩ := r
          simp only [h2, Option.bind_eq_bind, Option.some_bind] at h
          simp at h
          obtain ⟨h3, h4⟩ := h
          subst h3; subst h4
          have := ih h2
          simp only at this
          simp [heq, ← this]
      · simp at h

theorem bracketArgT_text {f : Nat} {st : St} {x : List Char} {st' : St}
    (h : bracketArgT f st = some (x, st')) : x ++ st'.rest = st.rest := by
  unfold bracketArgT at h
  cases h1 : bracketOpenP st with
  | none => simp [h1] at h
  | some r =>
    obtain ⟨n, st1⟩ := r
    simp only [h1, Option.bind_eq_bind, Option.some_bind] at h
    cases h2 : skipToInclP (closeMarker n) f st1 with
    | none => simp [h2] at h
    | some r2 =>
      obtain ⟨body, st2⟩ := r2
      simp only [h2, Option.some_bind] at h
      simp at h
      obtain ⟨h3, h4⟩ := h
      subst h3; subst h4
      have e1 := bracketOpenP_text h1
      have e2 := skipToInclP_text h2
      rw [← e1]
      simp [← e2]

theorem unquotedArgT_text {f : Nat} {st : St} {x : List Char} {st' : St}
    (h : unquotedArgT f st = some (x, st')) : x ++ st'.rest = st.rest := by
  unfold unquotedArgT at h
  cases h1 : unquotedElemP st with
  | none => simp [h1] at h
  | some r =>
    obtain ⟨x0, st1⟩ := r
    simp only [h1, Option.bind_eq_bind, Option.some_bind] at h
    cases hb : lexLoop unquotedElemP f st1 with
    | mk xs st2 =>
      simp only [hb] at h
      simp at h
      obtain ⟨h3, h4⟩ := h
      subst h3; subst h4
      have e1 := unquotedElemP_text h1
      have e2 : xs ++ st2.rest = st1.rest := by
        have := lexLoop_text (fun st x st' => unquotedElemP_text) f st1
        rw [hb] at this; exact this
      rw [← e1, ← e2]
      simp

theorem argumentT_text {f : Nat} {st : St} {x : List Char} {st' : St}
    (h : argumentT f st = some (x, st')) : x ++ st'.rest = st.rest := by
  unfold argumentT at h
  cases h1 : bracketArgT f st with
  | some r =>
    rw [h1] at h
    cases h
    exact bracketArgT_text h1
  | none =>
    rw [h1] at h
    cases h2 : quotedArgT f st with
    | some r =>
      rw [h2] at h
      cases h
      exact quotedArgT_text h2
    | none =>
      rw [h2] at h
      exact unquotedArgT_text h

theorem lineCommentP_text {st : St} {x : List Char} {st' : St}
    (h : lineCommentP st = some (x, st')) : x ++ st'.rest = st.rest := by
  unfold lineCommentP at h
  split at h
  · rename_i cs heq
    split at h
    · simp at h
    · simp at h
      obtain ⟨h1, h2⟩ := h
      subst h1; cases h2
      rw [heq]
      show '#' :: (List.takeWhile _ cs ++ List.dropWhile _ cs) = '#' :: cs
      rw [List.takeWhile_append_dropWhile]
  · simp at h

theorem bracketCommentP_text {f : Nat} {st : St} {x : List Char} {st' : St}
    (h : bracketCommentP f st = some (x, st')) : x ++ st'.rest = st.rest := by
  unfold bracketCommentP at h
  split at h
  · rename_i cs heq
    cases h1 : bracketArgT f ⟨st.pos + 1, cs, st.past⟩ with
    | none => simp [h1] at h
    | some r =>
      obtain ⟨b, st1⟩ := r
      simp only [h1, Option.bind_eq_bind, Option.some_bind] at h
      simp at h
      obtain ⟨h2, h3⟩ := h
      subst h2; subst h3
      have := bracketArgT_text h1
      simp only at this
      simp [heq, ← this]
  · simp at h

theorem tokLoop_text {p : St → Option (List (List Char) × St)}
    (hp : ∀ st ts st', p st = some (ts, st') → ts.flatten ++ st'.rest = st.rest) :
    ∀ f st, (tokLoop p f st).1.flatten ++ (tokLoop p f st).2.rest = st.rest := by
  intro f
  induction f with
  | zero => intro st; simp [tokLoop]
  | succ f ih =>
    intro st
    unfold tokLoop
    cases h : p st with
    | none => simp
    | some r =>
      obtain ⟨ts, st'⟩ := r
      have h1 := hp st ts st' h
      have h2 := ih st'
      simp only [List.flatten_append]
      rw [List.append_assoc, h2, h1]

theorem bcSpaceElemP_text {f : Nat} {st : St} {ts : List (List Char)} {st' : St}
    (h : bcSpaceElemP f st = some (ts, st')) :
    ts.flatten ++ st'.rest = st.rest := by
  unfold bcSpaceElemP at h
  cases h1 : bracketCommentP f st with
  | none => simp [h1] at h
  | some r =>
    obtain ⟨bc, st1⟩ := r
    simp only [h1, Option.bind_eq_bind, Option.some_bind] at h
    cases h2 : spaceStarP st1 with
    | mk sp st2 =>
      simp only [h2] at h
      simp at h
      obtain ⟨h3, h4⟩ := h
      subst h3; subst h4
      have e1 := bracketCommentP_text h1
      have e2 := spaceStarP_text st1
      rw [h2] at e2
      simp only at e2
      by_cases hsp : sp = []
      · subst hsp
        simp only [if_pos rfl]
        simp only [List.nil_append] at e2
        simp [← e1, e2]
      · simp only [if_neg hsp]
        simp only [List.flatten_cons, List.flatten_nil, List.append_nil]
        rw [← e1, ← e2]
        simp

theorem lineEndingT_text {f : Nat} {st : St} {ts : List (List Char)} {st' : St}
    (h : lineEndingT f st = some (ts, st')) :
    ts.flatten ++ st'.rest = st.rest := by
  unfold lineEndingT at h
  cases hsp : spaceStarP st with
  | mk sp st1 =>
    simp only [hsp] at h
    cases hbc : tokLoop (bcSpaceElemP f) f st1 with
    | mk bcs st2 =>
      simp only [hbc] at h
      cases hlc : lineCommentP st2 with
      | some r =>
        obtain ⟨lc, st3⟩ := r
        simp only [hlc] at h
        cases hle : lineEndP st3 with
        | none => simp [hle] at h
        | some r2 =>
          obtain ⟨onl, st4⟩ := r2
          simp only [hle] at h
          simp at h
          obtain ⟨h1, h2⟩ := h
          subst h1; subst h2
          have e1 := spaceStarP_text st
          rw [hsp] at e1; simp only at e1
          have e2 := tokLoop_text (p := bcSpaceElemP f)
            (fun _ _ _ hx => bcSpaceElemP_text hx) f st1
          rw [hbc] at e2; simp only at e2
          have e3 := lineCommentP_text hlc
          have e4 := lineEndP_text hle
          by_cases hempty : sp = []
          · subst hempty
            simp only [if_pos rfl]
            simp only [List.nil_append] at e1
            cases onl <;>
              simp_all [List.flatten_append, List.append_assoc]
          · simp only [if_neg hempty]
            cases onl <;>
              simp_all [List.flatten_append, List.append_assoc]
      | none =>
        simp only [hlc] at h
        cases hle : lineEndP st2 with
        | none => simp [hle] at h
        | some r2 =>
          obtain ⟨onl, st4⟩ := r2
          simp only [hle] at h
          simp at h
          obtain ⟨h1, h2⟩ := h
          subst h1; subst h2
          have e1 := spaceStarP_text st
          rw [hsp] at e1; simp only at e1
          have e2 := tokLoop_text (p := bcSpaceElemP f)
            (fun _ _ _ hx => bcSpaceElemP_text hx) f st1
          rw [hbc] at e2; simp only at e2
          have e4 := lineEndP_text hle
          by_cases hempty : sp = []
          · subst hempty
            simp only [if_pos rfl]
            simp only [List.nil_append] at e1
            cases onl <;>
              simp_all [List.flatten_append, List.append_assoc]
          · simp only [if_neg hempty]
            cases onl <;>
              simp_all [List.flatten_append, List.append_assoc]

theorem argsT_text : ∀ f : Nat,
    (∀ st ts st', argElemT f st = some (ts, st') →
      ts.flatten ++ st'.rest = st.rest) ∧
    (∀ st, (argumentsT f st).1.flatten ++ (argumentsT f st).2.rest = st.rest) := by
  intro f
  induction f with
  | zero =>
    constructor
    · intro st ts st' h
      simp [argElemT] at h
    · intro st
      simp [argumentsT]
  | succ f ih =>
    obtain ⟨ihElem, ihArgs⟩ := ih
    constructor
    · intro st ts st' h
      unfold argElemT at h
      cases h1 : argumentT f st with
      | some r =>
        obtain ⟨a, st1⟩ := r
        rw [h1] at h
        simp at h
        obtain ⟨h2, h3⟩ := h
        subst h2; subst h3
        simpa using argumentT_text h1
      | none =>
        rw [h1] at h
        cases h2 : lineEndingT f st with
        | some r =>
          obtain ⟨ts2, st2⟩ := r
          rw [h2] at h
          cases h
          exact lineEndingT_text h2
        | none =>
          rw [h2] at h
          cases h3 : spacePlusP st with
          | some r =>
            obtain ⟨sp, st3⟩ := r
            rw [h3] at h
            simp at h
            obtain ⟨h4, h5⟩ := h
            subst h4; subst h5
            simpa using spacePlusP_text h3
          | none =>
            rw [h3] at h
            cases h4 : litP ['('] st with
            | none => simp [h4] at h
            | some st4 =>
              simp only [h4, Option.bind_eq_bind, Option.some_bind] at h
              cases h5 : argumentsT f st4 with
              | mk inner st5 =>
                simp only [h5] at h
                cases h6 : litP [')'] st5 with
                | none => simp [h6] at h
                | some st6 =>
                  simp only [h6, Option.some_bind] at h
                  simp at h
                  obtain ⟨h7, h8⟩ := h
                  subst h7; subst h8
                  have e4 := litP_text h4
                  have e5 := ihArgs st4
                  rw [h5] at e5; simp only at e5
                  have e6 := litP_text h6
                  simp only [List.flatten_cons, List.flatten_append,
                    List.flatten_nil] at *
                  simp only [List.append_assoc, List.singleton_append,
                    List.append_nil, List.cons_append] at *
                  rw [e6, e5, e4]
    · intro st
      unfold argumentsT
      cases h : argElemT f st with
      | none => simp
      | some r =>
        obtain ⟨ts, st'⟩ := r
        have h1 := ihElem st ts st' h
        have h2 := ihArgs st'
        simp only [List.flatten_append]
        rw [List.append_assoc, h2, h1]

theorem commandInvocationT_text {f : Nat} {st : St} {t : ITok} {st' : St}
    (h : commandInvocationT f st = some (t, st')) :
    itokText t ++ st'.rest = st.rest := by
  unfold commandInvocationT at h
  cases h1 : wordP st with
  | none => simp [h1] at h
  | some r =>
    obtain ⟨id, st1⟩ := r
    simp only [h1, Option.bind_eq_bind, Option.some_bind] at h
    cases h2 : spaceStarP st1 with
    | mk sp st2 =>
      simp only [h2] at h
      cases h3 : litP ['('] st2 with
      | none => simp [h3] at h
      | some st3 =>
        simp only [h3, Option.some_bind] at h
        cases h4 : argumentsT f st3 with
        | mk args st4 =>
          simp only [h4] at h
          cases h5 : litP [')'] st4 with
          | none => simp [h5] at h
          | some st5 =>
            simp only [h5, Option.some_bind] at h
            simp at h
            obtain ⟨h6, h7⟩ := h
            subst h6; subst h7
            have e1 := wordP_text h1
            have e2 := spaceStarP_text st1
            rw [h2] at e2; simp only at e2
            have e3 := litP_text h3
            have e4 := (argsT_text f).2 st3
            rw [h4] at e4; simp only at e4
            have e5 := litP_text h5
            simp only [itokText, List.append_assoc, List.cons_append,
              List.singleton_append, List.nil_append] at *
            rw [e5, e4, e3, e2, e1]

theorem itoksText_append (a b : List ITok) :
    itoksText (a ++ b) = itoksText a ++ itoksText b := by
  simp [itoksText]

theorem itoksText_lits (l : List (List Char)) :
    itoksText (l.map ITok.lit) = l.flatten := by
  induction l with
  | nil => rfl
  | cons a l ih => simp [itoksText, itokText] at ih ⊢; exact ih

theorem fileElemCmdT_text {f : Nat} {st : St} {ts : List ITok} {st' : St}
    (h : fileElemCmdT f st = some (ts, st')) :
    itoksText ts ++ st'.rest = st.rest := by
  unfold fileElemCmdT at h
  cases hsp : spaceStarP st with
  | mk sp st1 =>
    simp only [hsp] at h
    cases h1 : commandInvocationT f st1 with
    | none =>
      simp only [h1, Option.bind_eq_bind, Option.none_bind] at h
      exact Option.noConfusion h
    | some r =>
      obtain ⟨c, st2⟩ := r
      simp only [h1, Option.bind_eq_bind, Option.some_bind] at h
      cases h2 : lineEndingT f st2 with
      | none =>
        simp only [h2, Option.none_bind] at h
        exact Option.noConfusion h
      | some r2 =>
        obtain ⟨le, st3⟩ := r2
        simp only [h2, Option.some_bind] at h
        simp at h
        obtain ⟨h3, h4⟩ := h
        subst h3; subst h4
        have e0 := spaceStarP_text st
        rw [hsp] at e0; simp only at e0
        have e1 := commandInvocationT_text h1
        have e2 := lineEndingT_text h2
        have hsp_text : itoksText (if sp = [] then [] else [ITok.lit sp]) = sp := by
          by_cases hs : sp = []
          · simp [hs, itoksText]
          · simp [hs, itoksText, itokText]
        rw [itoksText_append, hsp_text]
        have hc : itoksText (c :: List.map ITok.lit le) =
            itokText c ++ le.flatten := by
          have := itoksText_lits le
          simp [itoksText] at this ⊢
          exact this
        rw [hc]
        simp only [List.append_assoc]
        rw [e2, e1, e0]

theorem fileElemT_text {f : Nat} {st : St} {ts : List ITok} {st' : St}
    (h : fileElemT f st = some (ts, st')) :
    itoksText ts ++ st'.rest = st.rest := by
  unfold fileElemT at h
  cases hA : fileElemCmdT f st with
  | some r =>
    rw [hA] at h
    cases h
    exact fileElemCmdT_text hA
  | none =>
    rw [hA] at h
    cases h2 : lineEndingT f st with
    | none => simp [h2] at h
    | some r2 =>
      obtain ⟨le, st3⟩ := r2
      simp only [h2, Option.map_some'] at h
      simp at h
      obtain ⟨h3, h4⟩ := h
      subst h3; subst h4
      rw [itoksText_lits]
      exact lineEndingT_text h2

theorem tokenFileT_text : ∀ (f : Nat) (st : St),
    itoksText (tokenFileT f st).1 ++ (tokenFileT f st).2.rest = st.rest := by
  intro f
  induction f with
  | zero => intro st; simp [tokenFileT, itoksText]
  | succ f ih =>
    intro st
    unfold tokenFileT
    cases h : fileElemT f st with
    | none => simp [itoksText]
    | some r =>
      obtain ⟨ts, st'⟩ := r
      have h1 := fileElemT_text h
      have h2 := ih st'
      simp only [itoksText, List.map_append, List.flatten_append] at *
      rw [List.append_assoc, h2, h1]

/-! ### C4 — Token Mode round-trip -/

theorem toksSpecText_of_no_sp {itoks : List ITok}
    (hsp : ∀ t ∈ itoks, itokSp t = []) :
    toksSpecText (itoks.map toTok) = itoksText itoks := by
  induction itoks with
  | nil => rfl
  | cons t ts ih =>
    have ht := hsp t (by simp)
    have hts := ih fun u hu => hsp u (by simp [hu])
    cases t with
    | lit x =>
      simp [toksSpecText, itoksText, toTok, tokSpecText, itokText] at hts ⊢
      exact hts
    | cmd id sp args =>
      simp only [itokSp] at ht
      subst ht
      simp [toksSpecText, itoksText, toTok, tokSpecText, itokText] at hts ⊢
      exact hts

/-- C4, as the spec states it, is false: the input `"a ()"` parses with
an empty remainder, but concatenating the tokens' literal text yields
`"a()"` — the whitespace between a command's identifier and its opening
parenthesis is suppressed by the grammar (parser.py line 50) and lost
from the stream (as the repository's own `test_command_space` and
`test_command_arg_space` record). -/
theorem spec_c4_roundtrip_counterexample :
    ListParser.parse "a ()" = ([Tok.cmd ['a'] []], "") ∧
      toksSpecText (ListParser.parse "a ()").1 = "a()".data ∧
      toksSpecText (ListParser.parse "a ()").1 ≠ "a ()".data := by
  refine ⟨by decide, by decide, by decide⟩

/-- C4 (amended): for every input whose Token Mode parse returns an
empty remainder, concatenating the literal text of all tokens in stream
order (a command token contributing its identifier, its parentheses,
and its argument tokens' text) reproduces the input byte-for-byte,
provided no command invocation carries whitespace between its
identifier and its opening parenthesis (that whitespace, recorded by
the instrumentation as `itokSp`, is suppressed and is the only text the
stream drops). -/
theorem spec_c4_roundtrip_amended (f : Nat) (s : String)
    (itoks : List ITok) (st' : St)
    (h : tokenFileT f (initSt s) = (itoks, st'))
    (hrest : st'.rest = [])
    (hsp : ∀ t ∈ itoks, itokSp t = []) :
    toksSpecText (itoks.map toTok) = s.data := by
  have hf := tokenFileT_text f (initSt s)
  rw [h] at hf
  simp only [initSt, hrest, List.append_nil] at hf
  rw [toksSpecText_of_no_sp hsp]
  exact hf

/-- Witness for C4 (amended) at the concrete input `"a(b)"`. -/
theorem spec_c4_roundtrip_amended_witness :
    tokenFileT 48 (initSt "a(b)") = ([ITok.cmd ['a'] [] [['b']]], ⟨5, [], true⟩) ∧
      toksSpecText ([ITok.cmd ['a'] [] [['b']]].map toTok) = "a(b)".data :=
  ⟨by decide,
    spec_c4_roundtrip_amended 48 "a(b)" [ITok.cmd ['a'] [] [['b']]] ⟨5, [], true⟩
      (by decide) (by decide) (by decide)⟩

/-! ### C9 — formatting refuses unparsed documents -/

/-- C9: for every document whose Token Mode parse leaves a non-empty
remainder, the CLI emits the original content verbatim, `--inplace`
writes nothing, and the server's formatting request produces no edit
(formatter.py 128-134, server.py 158-161). -/
theorem spec_c9_remainder_passthrough (content : String)
    (h : (ListParser.parse content).2 ≠ "") :
    cliFormatOne content = content ∧ cliInplaceWrite content = none ∧
      serverFormatting content = none := by
  obtain ⟨hf1, hf2⟩ : cliFormatOne content = content ∧ cliInplaceWrite content = none := by
    unfold cliFormatOne cliInplaceWrite
    rcases he : ListParser.parse content with ⟨toks, remain⟩
    rw [he] at h
    simp only at h
    simp [he, h]
  refine ⟨hf1, hf2, ?_⟩
  unfold serverFormatting
  rcases he : ListParser.parse content with ⟨toks, remain⟩
  rw [he] at h
  simp only at h
  simp [he, h]

/-- Witness for C9 at the (incomplete) input `"a("`. -/
theorem spec_c9_remainder_passthrough_witness :
    (ListParser.parse "a(").2 ≠ "" ∧ cliFormatOne "a(" = "a(" ∧
      cliInplaceWrite "a(" = none ∧ serverFormatting "a(" = none :=
  ⟨by decide,
    (spec_c9_remainder_passthrough "a(" (by decide)).1,
    (spec_c9_remainder_passthrough "a(" (by decide)).2.1,
    (spec_c9_remainder_passthrough "a(" (by decide)).2.2⟩

/-! ### C6 — formatting is not idempotent -/

/-- C6 fails on the code: the input `"a(b # c\n)"` parses with empty
remainder, but its formatted output `"a(b # c)\n"` places the trailing
comment and the closing parenthesis on one line, which the Token Mode
grammar cannot re-parse (the line comment swallows the `)`); the
formatted output therefore parses with a non-empty remainder, and
re-formatting its token stream does not reproduce it. -/
theorem spec_c6_idempotence_failure :
    ListParser.parse "a(b # c\n)" =
      ([Tok.cmd ['a'] [['b'], [' '], ['#', ' ', 'c'], ['\n']]], "") ∧
    Formatter.format (ListParser.parse "a(b # c\n)").1 = "a(b # c)\n".data ∧
    (ListParser.parse "a(b # c)\n").2 = "a(b # c)\n" ∧
    Formatter.format (ListParser.parse "a(b # c)\n").1 ≠
      Formatter.format (ListParser.parse "a(b # c\n)").1 :=
  ⟨by decide, by decide, by decide, by decide⟩

/-! ### C10 — keyword-prefixed identifiers are rejected in AST Mode -/

/-- C10: the AST Mode generic invocation identifier carries a negative
lookahead built from plain `CaselessLiteral`s (grammar.py 286-287), so
any position where some block keyword caselessly matches — i.e. any
identifier merely beginning with a keyword, such as `ifx` or
`while_loop` — makes the generic `command_invocation` fail. -/
theorem spec_c10_keyword_leading_identifier_rejected (f : Nat) (st : St)
    (h : kwLeads st.rest = true) : commandInvocationA f st = none := by
  unfold commandInvocationA identifierA
  simp [h]

/-- Witness for C10 at `"ifx()"`: the lookahead hits, the invocation
fails, `ifx` itself is not a block keyword, and the whole line parses
to nothing. -/
theorem spec_c10_keyword_leading_identifier_rejected_witness :
    kwLeads "ifx()".data = true ∧
      commandInvocationA 64 (initSt "ifx()") = none ∧
      "ifx".data ∉ blockKeywordStrs ∧
      (astParse "ifx()\n").1.isEmpty = true ∧
      (astParse "ifx()\n").2 = "ifx()\n" :=
  ⟨by decide,
    spec_c10_keyword_leading_identifier_rejected 64 (initSt "ifx()") (by decide),
    by decide, by decide, by decide⟩

/-! ### C3 — the `while` loop grammar slip -/

/-- C3 names a code bug: `loop_block`'s second alternative uses
`while_end` (the `endwhile` line parser) in the declaration position
(grammar.py 348), while `while_start` (line 344) is dead. So on
`while(x) … endwhile()` no alternative of the loop (or any other
block) grammar matches even its leading keyword — no LoopBlock with
declaration `while` can ever be produced — and the input does not
parse at all, while a `foreach` loop parses correctly. -/
theorem spec_c3_while_loop_slip :
    (astParse "while(x)\nendwhile()\n").1.isEmpty = true ∧
    (astParse "while(x)\nendwhile()\n").2 = "while(x)\nendwhile()\n" ∧
    (match astParse "foreach(x)\nendforeach()\n" with
     | ([Blk.loopBlock _ d _ e], rem) =>
       decide (d.id = "foreach".data) && decide (e.id = "endforeach".data) &&
         decide (rem = "")
     | _ => false) = true :=
  ⟨by decide, by decide, by decide⟩

/-! ### C2 — conditional block shape; no `else` branch exists -/

/-- C2's `else` part fails on the code: `else` is not in
`block_keyword_strs` and `conditional_block` has no `else` alternative
(grammar.py 281-285, 333-339), so an `else()` line parses as an
ordinary `CommandInvocation` inside the enclosing branch's body. -/
theorem spec_c2_else_counterexample :
    (astParse "if()\nelse()\nendif()\n").2 = "" ∧
    (match (astParse "if()\nelse()\nendif()\n").1 with
     | [Blk.condBlock _ [br] e] =>
       decide (br.decl.id = "if".data) && decide (e.id = "endif".data) &&
         (match br.children with
          | [Blk.inv i] => decide (i.id = "else".data) && i.args.isEmpty
          | _ => false)
     | _ => false) = true :=
  ⟨by decide, by decide⟩

theorem kwInvA_id {kw : List Char} {f : Nat} {st : St} {inv : CmdInv} {st' : St}
    (h : kwInvA kw f st = some (inv, st')) : inv.id = kw := by
  unfold kwInvA at h
  cases h1 : caselessLitP kw st with
  | none => simp [h1] at h
  | some st1 =>
    simp only [h1, Option.bind_eq_bind, Option.some_bind] at h
    cases h2 : spaceStarP st1 with
    | mk sp st2 =>
      simp only [h2] at h
      cases h3 : litP ['('] st2 with
      | none => simp [h3] at h
      | some st3 =>
        simp only [h3, Option.some_bind] at h
        cases h4 : argumentsA f st3 with
        | mk args st4 =>
          simp only [h4] at h
          cases h5 : litP [')'] st4 with
          | none => simp [h5] at h
          | some st5 =>
            simp only [h5, Option.some_bind] at h
            simp at h
            obtain ⟨h6, h7⟩ := h
            subst h6
            rfl

theorem kwLineA_id {kw : List Char} {f : Nat} {st : St} {inv : CmdInv} {st' : St}
    (h : kwLineA kw f st = some (inv, st')) : inv.id = kw := by
  unfold kwLineA at h
  cases h1 : spaceStarP st with
  | mk sp st1 =>
    simp only [h1] at h
    cases h2 : kwInvA kw f st1 with
    | none => simp [h2] at h
    | some r =>
      obtain ⟨inv2, st2⟩ := r
      simp only [h2, Option.bind_eq_bind, Option.some_bind] at h
      cases h3 : lineEndingA f st2 with
      | none => simp [h3] at h
      | some st3 =>
        simp only [h3, Option.some_bind] at h
        simp at h
        obtain ⟨h4, h5⟩ := h
        subst h4
        exact kwInvA_id h2

theorem elseifLoopA_ids : ∀ (f : Nat) (st : St),
    ∀ br ∈ (elseifLoopA f st).1, br.decl.id = "elseif".data := by
  intro f
  induction f with
  | zero => intro st br hbr; simp [elseifLoopA] at hbr
  | succ f ih =>
    intro st br hbr
    unfold elseifLoopA at hbr
    cases h1 : kwLineA "elseif".data f st with
    | none =>
      simp only [h1, Option.bind_eq_bind, Option.none_bind] at hbr
      simp at hbr
    | some r =>
      obtain ⟨d, st1⟩ := r
      simp only [h1, Option.bind_eq_bind, Option.some_bind] at hbr
      cases h2 : blocksA f st1 with
      | mk ch st2 =>
        simp only [h2] at hbr
        simp at hbr
        rcases hbr with hbr | hbr
        · subst hbr
          simpa [CondBranch.decl] using kwLineA_id h1
        · exact ih st2 br hbr

/-- C2 (amended): in AST Mode, every `ConditionalBlock` the parser
produces consists of exactly one `if` branch first, zero-or-more
`elseif` branches, and an `endif` terminator; branch declaration
keywords are drawn from `{if, elseif}` only — there are no `else`
branches, an `else()` line instead parsing as an ordinary
`CommandInvocation` inside the enclosing branch's body. -/
theorem spec_c2_conditional_shape_amended : ∀ (f : Nat) (st : St),
    (match conditionalBlockA f st with
     | none => true
     | some ((brs, e), _) =>
       match brs with
       | [] => false
       | b0 :: rest =>
         decide (b0.decl.id = "if".data) &&
           rest.all (fun b => decide (b.decl.id = "elseif".data)) &&
           decide (e.id = "endif".data)) = true := by
  intro f st
  cases f with
  | zero => simp [conditionalBlockA]
  | succ f =>
    unfold conditionalBlockA
    cases h1 : kwLineA "if".data f st with
    | none => simp [h1]
    | some r =>
      obtain ⟨d0, st1⟩ := r
      simp only [h1, Option.bind_eq_bind, Option.some_bind]
      cases h2 : blocksA f st1 with
      | mk ch0 st2 =>
        simp only [h2]
        cases h3 : elseifLoopA f st2 with
        | mk brs st3 =>
          simp only [h3]
          cases h4 : kwLineA "endif".data f st3 with
          | none => simp [h4]
          | some r2 =>
            obtain ⟨e, st4⟩ := r2
            simp only [h4, Option.some_bind]
            simp only [CondBranch.decl]
            have hd0 := kwLineA_id h1
            have he := kwLineA_id h4
            have hbrs := elseifLoopA_ids f st2
            rw [h3] at hbrs
            simp only at hbrs
            simp [hd0, he, List.all_eq_true]
            intro b hb
            exact hbrs b hb

/-! ### C1 — ReturnInMacro fires outside macros -/

set_option maxHeartbeats 4000000 in
/-- C1 names a code bug. Two compounding slips make `ReturnInMacro`
warn on every `return()` invocation:
`CommandDeclarationBlock.visit` never visits its declaration/end nodes
(grammar.py 93-94), so the macro counter never moves; and the guard
tests `macro_counter < 0` instead of `<= 0` (diagnostics.py 83), so
the rule fires at counter `0`. Hence `return()` nested only inside
`function()…endfunction()`, and even at top level, draws a Warning —
the spec's "inside only function → none" is the documented intent
(the class docstring reads "Finds return() invocations in macros"). -/
theorem spec_c1_return_in_macro_slip :
    (astParse "function(f)\nreturn()\nendfunction()\n").2 = "" ∧
    returnInMacroRun "function(f)\nreturn()\nendfunction()\n".data
        (fileEvents (bigFuel "function(f)\nreturn()\nendfunction()\n")
          (astParse "function(f)\nreturn()\nendfunction()\n").1) =
      [⟨((1, 0), (1, 1)),
        "Return in macro: Prefer message(FATAL_ERROR ...) to halt execution in macro",
        2⟩] ∧
    (astParse "return()\n").2 = "" ∧
    returnInMacroRun "return()\n".data
        (fileEvents (bigFuel "return()\n") (astParse "return()\n").1) =
      [⟨((0, 0), (0, 1)),
        "Return in macro: Prefer message(FATAL_ERROR ...) to halt execution in macro",
        2⟩] ∧
    returnInMacroRun "macro(m)\nreturn()\nendmacro()\n".data
        (fileEvents (bigFuel "macro(m)\nreturn()\nendmacro()\n")
          (astParse "macro(m)\nreturn()\nendmacro()\n").1) =
      [⟨((1, 0), (1, 1)),
        "Return in macro: Prefer message(FATAL_ERROR ...) to halt execution in macro",
        2⟩] :=
  ⟨by decide, by decide, by decide, by decide, by decide⟩

/-! ### C5 — DuplicateBranch matches length-differing branches -/

set_option maxHeartbeats 4000000 in
/-- C5 names a code bug: the rule compares branch argument lists with
`zip` + `all` (diagnostics.py 128-131), and `zip` truncates to the
shorter list, so `if(A)` followed by `elseif(A B)` — argument lists of
lengths 1 and 2 — is reported as a duplicate on the `elseif` branch,
although the class docstring promises "the exact same conditions" and
the spec requires equal lengths. The same-length positive example
(`if(A)` / `elseif(A)`) is also checked. -/
theorem spec_c5_duplicate_branch_zip_slip :
    (astParse "if(A)\nelseif(A B)\nendif()\n").2 = "" ∧
    (match (astParse "if(A)\nelseif(A B)\nendif()\n").1 with
     | [Blk.condBlock _ brs _] =>
       decide (brs.map (fun b => b.decl.args.length) = [1, 2])
     | _ => false) = true ∧
    duplicateBranchRun "if(A)\nelseif(A B)\nendif()\n".data
        (fileEvents (bigFuel "if(A)\nelseif(A B)\nendif()\n")
          (astParse "if(A)\nelseif(A B)\nendif()\n").1) =
      [⟨((1, 0), (1, 1)),
        "Duplicate conditional branch: Condition matches a previous branch",
        2⟩] ∧
    duplicateBranchRun "if(A)\nelseif(A)\nendif()\n".data
        (fileEvents (bigFuel "if(A)\nelseif(A)\nendif()\n")
          (astParse "if(A)\nelseif(A)\nendif()\n").1) =
      [⟨((1, 0), (1, 1)),
        "Duplicate conditional branch: Condition matches a previous branch",
        2⟩] ∧
    duplicateBranchRun "if(A)\nelseif(B)\nendif()\n".data
        (fileEvents (bigFuel "if(A)\nelseif(B)\nendif()\n")
          (astParse "if(A)\nelseif(B)\nendif()\n").1) = [] :=
  ⟨by decide, by decide, by decide, by decide, by decide⟩

/-! ### C8 — RedundantAssignment strips a character set, not a wrapper -/

set_option maxHeartbeats 1000000 in
/-- C8 as stated is false on the code: for `set(X X$)` the value `X$`
has no `${...}` wrapper (so the claim's condition does not hold), yet
Python's `rhs.strip("${}")` (diagnostics.py 112) removes the trailing
`$` and the rule fires. -/
theorem spec_c8_redundant_wrapper_counterexample :
    (astParse "set(X X$)\n").2 = "" ∧
    redundantAssignmentRun "set(X X$)\n".data
        (fileEvents (bigFuel "set(X X$)\n") (astParse "set(X X$)\n").1) =
      [⟨((0, 0), (0, 1)),
        "Redundant assignment: Destination and source variable names match",
        2⟩] ∧
    (match (astParse "set(X X$)\n").1 with
     | [Blk.inv i] => redundantHit i && !specRedundantHit i
     | _ => false) = true :=
  ⟨by decide, by decide, by decide⟩

theorem stripLeadRec_eq_dropWhile (cs : List Char) :
    stripLeadRec cs = cs.dropWhile (· ∈ stripChars) := by
  induction cs with
  | nil => rfl
  | cons c cs ih =>
    by_cases hc : c = '$' ∨ c = Char.ofNat 123 ∨ c = Char.ofNat 125
    · rw [stripLeadRec, if_pos hc, ih, List.dropWhile_cons_of_pos]
      simp [stripChars, hc]
    · rw [stripLeadRec, if_neg hc, List.dropWhile_cons_of_neg]
      simp only [stripChars, List.mem_cons, List.mem_singleton]
      simpa using hc

theorem pyStrip_eq_stripBothRec (cs : List Char) :
    pyStrip cs = stripBothRec cs := by
  unfold pyStrip stripBothRec
  rw [stripLeadRec_eq_dropWhile, stripLeadRec_eq_dropWhile]

set_option maxHeartbeats 2000000 in
/-- C8 (amended): the rule warns on a `set` invocation if and only if
it has exactly two arguments `(name, value)`, `value` contains exactly
one `$`, and `value` after removing all leading and trailing
characters drawn from `{'$', '{', '}'}` (Python `str.strip("${}")`
semantics, not just a literal `${...}` wrapper) equals `name`; the
spec's three examples behave as stated. -/
theorem spec_c8_redundant_assignment_amended :
    (∀ i : CmdInv, redundantHit i = amendedRedundantHit i) ∧
    redundantAssignmentRun "set(X ${X})\n".data
        (fileEvents (bigFuel "set(X ${X})\n") (astParse "set(X ${X})\n").1) =
      [⟨((0, 0), (0, 1)),
        "Redundant assignment: Destination and source variable names match",
        2⟩] ∧
    redundantAssignmentRun "set(X ${Y})\n".data
        (fileEvents (bigFuel "set(X ${Y})\n") (astParse "set(X ${Y})\n").1) = [] ∧
    redundantAssignmentRun "set(X \"${X}-${X}\")\n".data
        (fileEvents (bigFuel "set(X \"${X}-${X}\")\n")
          (astParse "set(X \"${X}-${X}\")\n").1) = [] := by
  refine ⟨?_, by decide, by decide, by decide⟩
  intro i
  unfold redundantHit amendedRedundantHit
  congr 1
  cases hargs : i.args with
  | nil => rfl
  | cons a tl =>
    cases tl with
    | nil => rfl
    | cons b tl2 =>
      cases tl2 with
      | cons c tl3 => rfl
      | nil =>
        simp only []
        congr 1
        refine decide_eq_decide.mpr ?_
        rw [pyStrip_eq_stripBothRec]
        exact eq_comm

/-! ### C7 — a rule fault propagates out of diagnose -/

/-- The `diagnose` loop, characterised: it returns the first rule
fault as an error (rules after it never run, accumulated diagnostics
are lost), and only when no rule faults does it return the
concatenation of all rules' diagnostics in registration order. -/
theorem diagnoseLoop_spec {α : Type} (x : α) :
    ∀ (rules : List (α → Except String (List Diag))) (acc : List Diag),
      diagnoseLoop x rules acc =
        (match firstFault rules x with
         | some e => Except.error e
         | none => Except.ok (acc ++ okConcat rules x)) := by
  intro rules
  induction rules with
  | nil =>
    intro acc
    simp [diagnoseLoop, firstFault, okConcat]
  | cons r rs ih =>
    intro acc
    cases hr : r x with
    | error e =>
      simp [diagnoseLoop, hr, firstFault, List.findSome?_cons]
    | ok ds =>
      simp only [diagnoseLoop, hr]
      rw [ih]
      simp only [firstFault, List.findSome?_cons, hr, okConcat,
        List.flatMap_cons]
      cases hf : List.findSome?
          (fun r => match r x with | .error e => some e | .ok _ => none) rs with
      | none => simp [firstFault, hf, okConcat, List.append_assoc]
      | some e => simp [firstFault, hf]

/-- C7 (amended): an exception inside one diagnostic rule's pass is
not caught: the `diagnose` loop (diagnostics.py 199-202) propagates
the first rule fault to the caller, skipping every later rule and
discarding the diagnostics accumulated so far; only when every rule
pass succeeds does it return their diagnostics concatenated in
registration order. -/
theorem spec_c7_diagnose_fault_amended {α : Type}
    (rules : List (α → Except String (List Diag))) (x : α) :
    diagnoseWith rules x =
      (match firstFault rules x with
       | some e => Except.error e
       | none => Except.ok (okConcat rules x)) := by
  unfold diagnoseWith
  rw [diagnoseLoop_spec]
  cases firstFault rules x <;> simp

/-- C7's claimed behaviour is false on the code: with a faulting rule
between two healthy ones, the loop returns the fault, not the healthy
rules' concatenated diagnostics. -/
theorem spec_c7_rule_fault_counterexample :
    diagnoseWith (α := List Blk)
        [fun _ => .ok [⟨((0, 0), (0, 1)), "first rule finding", 3⟩],
         fun _ => .error "rule pass raised",
         fun _ => .ok [⟨((0, 0), (0, 1)), "third rule finding", 3⟩]] [] =
      .error "rule pass raised" ∧
    (Except.error "rule pass raised" : Except String (List Diag)) ≠
      .ok [⟨((0, 0), (0, 1)), "first rule finding", 3⟩,
           ⟨((0, 0), (0, 1)), "third rule finding", 3⟩] :=
  ⟨rfl, fun h => Except.noConfusion h⟩
